import Mathlib

/-!
# gen-bindata: the asset packing pipeline of `hack/gen-bindata/main.go`

A shallow embedding of `compressFiles`, the assembly loop of `main` and the
index template.  The operating system and the Go standard library are the
environment of the program: every I/O call takes its result from a `World`
(directory listings, file contents, the compressor, and for each call whether
it fails), so that the program itself is a total, executable function of the
world, the flags and the positional arguments.
-/

namespace GenBindata

/-! ## Strings and bytes -/

/-- A Go `string`, as the sequence of its characters. -/
abbrev GoString := List Char

/-- One byte of a file. -/
abbrev Byte := Fin 256

/-- The content of a file. -/
abbrev Bytes := List Byte

/-- Go `strings.HasPrefix(s, p)`: `len(s) >= len(p) && s[:len(p)] == p`. -/
def HasPrefix (s p : GoString) : Bool :=
  decide (s.length ≥ p.length) && (s.take p.length == p)

/-- Go `strings.TrimPrefix(s, p)`: `s[len(p):]` when `HasPrefix(s, p)`, else `s`. -/
def TrimPrefix (s p : GoString) : GoString :=
  if HasPrefix s p then s.drop p.length else s

/-- The inner loop of the `..` case of `path.Clean`: starting from `out.w = w`,
`for out.w > dotdot && out.index(out.w) != '/' { out.w-- }`; returns `out.w`. -/
def backtrack (out : GoString) (dotdot : Nat) : Nat → Nat
  | 0 => 0
  | w + 1 =>
    if w + 1 > dotdot && out[w + 1]? != some '/' then backtrack out dotdot w else w + 1

/-- The main loop of Go `path.Clean`: `r` is the index of the next character of
`path` to process, `out` the buffer written so far (`out.w = out.length`) and
`dotdot` the index in `out` where `..` must stop.  Every iteration advances
`r`, so `path.length` iterations always suffice. -/
def cleanLoop (path : GoString) (rooted : Bool) : Nat → Nat → GoString → Nat → GoString
  | 0, _, out, _ => out
  | fuel + 1, r, out, dotdot =>
    let n := path.length
    if r < n then
      if path[r]? == some '/' then
        -- empty path element
        cleanLoop path rooted fuel (r + 1) out dotdot
      else if path[r]? == some '.' && (r + 1 == n || path[r + 1]? == some '/') then
        -- . element
        cleanLoop path rooted fuel (r + 1) out dotdot
      else if path[r]? == some '.' && path[r + 1]? == some '.' &&
          (r + 2 == n || path[r + 2]? == some '/') then
        -- .. element: remove to last /
        if out.length > dotdot then
          cleanLoop path rooted fuel (r + 2) (out.take (backtrack out dotdot (out.length - 1))) dotdot
        else if !rooted then
          let out1 := if out.length > 0 then out ++ ['/'] else out
          let out2 := out1 ++ ['.', '.']
          cleanLoop path rooted fuel (r + 2) out2 out2.length
        else
          cleanLoop path rooted fuel (r + 2) out dotdot
      else
        -- real path element: add slash if needed, copy element
        let out1 :=
          if (rooted && out.length != 1) || (!rooted && out.length != 0) then out ++ ['/'] else out
        let elem := (path.drop r).takeWhile (fun c => c != '/')
        cleanLoop path rooted fuel (r + elem.length) (out1 ++ elem) dotdot
    else out

/-- Go `path.Clean`. -/
def pathClean (path : GoString) : GoString :=
  if path.length = 0 then ['.']
  else
    let rooted := path[0]? == some '/'
    let out := cleanLoop path rooted path.length (if rooted then 1 else 0)
      (if rooted then ['/'] else []) (if rooted then 1 else 0)
    if out.length = 0 then ['.'] else out

/-- Go `path.Join(dir, name)` for two elements: empty when both are empty;
otherwise the elements from the first non-empty one on, joined with `/`, then
cleaned. -/
def pathJoin (dir name : GoString) : GoString :=
  if dir.length + name.length = 0 then []
  else if dir.length = 0 then pathClean name
  else pathClean (dir ++ ['/'] ++ name)

/-! ## Data model -/

/-- The asset descriptor `fileInfo`. -/
structure fileInfo where
  Name : GoString
  Path : GoString
  TempFile : GoString
  Offset : Int
  Size : Int
  deriving DecidableEq, Repr

/-- The anonymous struct passed to `packageTemplate.Execute`. -/
structure TemplateData where
  OutFile : GoString
  Pkg : GoString
  BinData : List fileInfo
  BinDataSize : Int
  deriving DecidableEq, Repr

/-- The values of the command-line options after `flag.Parse()`. -/
structure Flags where
  pfx : GoString
  pkg : GoString
  outfile : GoString
  gofile : GoString
  deriving DecidableEq, Repr

/-- The defaults declared with `flag.StringVar`. -/
def defaultFlags : Flags :=
  { pfx := [], pkg := "main".toList, outfile := "./bindata".toList,
    gofile := "./bindata.go".toList }

/-- Largest `int64`; also the largest length a file can have. -/
def maxInt64 : Nat := 9223372036854775807

/-- Arithmetic on `int64` wraps around (two's complement). -/
def wrap64 (x : Int) : Int :=
  (x + 9223372036854775808) % 18446744073709551616 - 9223372036854775808

/-- The environment of one run: the results of the calls the program makes to
the operating system and to the standard library.  Calls made for the `k`-th
compression unit (the `k`-th file in discovery order, from 0) and for the
`i`-th iteration of the assembly loop are told apart by that index, so that
every call can fail independently of every other. -/
structure World where
  /-- Result of `os.ReadDir(dir)`: the entry names in listing order; `none` on error. -/
  readDir : GoString → Option (List GoString)
  /-- Result of `os.CreateTemp("", pattern)` of unit `k`: the name of the temporary
  file; `none` on error. -/
  createTemp : Nat → GoString → Option GoString
  /-- Whether `gzip.NewWriterLevel(tmpf, gzip.BestCompression)` of unit `k` succeeds. -/
  newWriter : Nat → Bool
  /-- Result of `os.Open(filePath)` of a source file: its content; `none` on error. -/
  openSrc : GoString → Option Bytes
  /-- Whether `io.Copy(gz, inf)` of unit `k` succeeds. -/
  copyIn : Nat → Bool
  /-- Whether `tmpf.Stat()` of unit `k` succeeds. -/
  stat : Nat → Bool
  /-- Whether `inf.Close()` of unit `k` succeeds. -/
  closeSrc : Nat → Bool
  /-- Result of `gz.Close()` of unit `k`: `none` when it succeeds, `some n` when it
  returns an error, only the first `n` bytes of the compressed stream having
  reached the temporary file. -/
  closeGz : Nat → Option Nat
  /-- The compressed stream `compress/gzip` produces for a content. -/
  gzip : Bytes → Bytes
  /-- Reading a gzip stream back (`gzip.NewReader` and `io.ReadAll`). -/
  gunzip : Bytes → Option Bytes
  /-- Whether `os.Create(outfile)` succeeds. -/
  createOut : GoString → Bool
  /-- Whether `os.Open(t.TempFile)` of iteration `i` succeeds (the file existing). -/
  openTemp : Nat → Bool
  /-- Whether `io.Copy(outf, inf)` of iteration `i` succeeds (the blob staying within
  the largest file length). -/
  copyOut : Nat → Bool
  /-- Whether `os.Create(gofile)` succeeds. -/
  createGo : GoString → Bool
  /-- Result of `packageTemplate.Execute`: `none` when it succeeds, `some n` when it
  returns an error after writing the first `n` characters. -/
  execute : Option Nat

/-- What the run has done so far to its surroundings. -/
structure State where
  /-- the usage text has been written to the diagnostic stream -/
  usage : Bool
  /-- the directories listed with `os.ReadDir`, in order -/
  listed : List GoString
  /-- the temporary files that exist, with their content, in creation order -/
  temps : List (GoString × Bytes)
  /-- the output blob has been created -/
  outCreated : Bool
  /-- the bytes written to the output blob -/
  blob : Bytes
  /-- the generated source file has been created -/
  goCreated : Bool
  /-- the text written to the generated source file -/
  gotext : GoString
  /-- the data handed to `packageTemplate.Execute` -/
  executed : Option TemplateData
  deriving DecidableEq, Repr

/-- Nothing done yet. -/
def State.init : State :=
  { usage := false, listed := [], temps := [], outCreated := false, blob := [],
    goCreated := false, gotext := [], executed := none }

/-- Result of a step that may end in `log.Fatal`: the value and state after
it, or the state in which the process was terminated (what a failed call left
half-written is not recorded). -/
inductive Res (α : Type) where
  | ok (a : α) (s : State)
  | fatal (s : State)
  deriving DecidableEq, Repr

/-- The end of the process: its exit status and what it has done. -/
structure Outcome where
  code : Nat
  state : State
  deriving DecidableEq, Repr

/-! ## compressFiles -/

/-- The `Name` of an asset: `strings.TrimPrefix(filePath, prefix) + ".gz"`. -/
def assetName (pfx filePath : GoString) : GoString :=
  TrimPrefix filePath pfx ++ ".gz".toList

/-- Body of the inner loop of `compressFiles` for the entry `f` of `dir`,
the goroutine included: the unit owns its temporary file and its source
handle, and `wg.Wait()` lets no unit outlive `compressFiles`, so the unit is
run to its end where it is started.  `tmpFiles` is the slice so far; the
unit is number `tmpFiles.length`. -/
def compressUnit (w : World) (pfx dir f : GoString) (tmpFiles : List fileInfo)
    (s : State) : Res (List fileInfo) :=
  let k := tmpFiles.length
  match w.createTemp k f with
  | none => .fatal s
  | some tmp =>
    -- the temporary file is created exclusively: an existing name is an error
    if (s.temps.lookup tmp).isSome then .fatal s
    else
      let s1 := { s with temps := s.temps ++ [(tmp, [])] }
      let filePath := pathJoin dir f
      let name := assetName pfx filePath
      let tmpFiles1 := tmpFiles ++
        [{ Name := name, Path := filePath, TempFile := tmp, Offset := 0, Size := 0 }]
      if !w.newWriter k then .fatal s1
      else
        match w.openSrc filePath with
        | none => .fatal s1
        | some src =>
          if !w.copyIn k then .fatal s1
          else if !w.stat k then .fatal s1
          else
            -- inf.Close() and gz.Close(): the returned errors are discarded
            let written :=
              match w.closeGz k with
              | none => w.gzip src
              | some n => (w.gzip src).take n
            .ok tmpFiles1 { s with temps := s.temps ++ [(tmp, written)] }

/-- The inner loop `for _, f := range files`. -/
def compressDir (w : World) (pfx dir : GoString) :
    List GoString → List fileInfo → State → Res (List fileInfo)
  | [], tmpFiles, s => .ok tmpFiles s
  | f :: fs, tmpFiles, s =>
    match compressUnit w pfx dir f tmpFiles s with
    | .fatal s1 => .fatal s1
    | .ok tmpFiles1 s1 => compressDir w pfx dir fs tmpFiles1 s1

/-- The outer loop `for _, dir := range flag.Args()`. -/
def compressDirs (w : World) (pfx : GoString) :
    List GoString → List fileInfo → State → Res (List fileInfo)
  | [], tmpFiles, s => .ok tmpFiles s
  | dir :: ds, tmpFiles, s =>
    match w.readDir dir with
    | none => .fatal s
    | some files =>
      match compressDir w pfx dir files tmpFiles { s with listed := s.listed ++ [dir] } with
      | .fatal s1 => .fatal s1
      | .ok tmpFiles1 s1 => compressDirs w pfx ds tmpFiles1 s1

/-- The function `compressFiles(prefix)`, `args` being `flag.Args()`. -/
def compressFiles (w : World) (pfx : GoString) (args : List GoString) (s : State) :
    Res (List fileInfo) :=
  compressDirs w pfx args [] s

/-! ## main -/

/-- The assembly loop of `main`, `for _, t := range tmpFiles`, from iteration
`i` on, with the running `offset` and the `bindata` collected so far.  A file
cannot grow beyond `maxInt64` bytes: a copy that would make the blob longer
fails. -/
def assembleLoop (w : World) :
    List fileInfo → Nat → Int → List fileInfo → State → Res (Int × List fileInfo)
  | [], _, offset, bindata, s => .ok (offset, bindata) s
  | t :: ts, i, offset, bindata, s =>
    if !w.openTemp i then .fatal s
    else
      match s.temps.lookup t.TempFile with
      | none => .fatal s
      | some content =>
        if !w.copyOut i || decide (maxInt64 < s.blob.length + content.length) then .fatal s
        else
          let size : Int := content.length
          -- os.Remove(t.TempFile)
          let s1 := { s with blob := s.blob ++ content,
                             temps := s.temps.filter (fun e => e.1 != t.TempFile) }
          assembleLoop w ts (i + 1) (wrap64 (offset + size))
            (bindata ++ [{ t with Offset := offset, Size := size }]) s1

/-- Lines 121-148 of `main`: `os.Create(outfile)`, `var offset int64 = 0` and
the assembly loop. -/
def assemble (w : World) (outfile : GoString) (tmpFiles : List fileInfo) (s : State) :
    Res (Int × List fileInfo) :=
  if !w.createOut outfile then .fatal s
  else assembleLoop w tmpFiles 0 0 [] { s with outCreated := true, blob := [] }

/-- One entry of the `range .BinData` section of `packageTemplate`. -/
def renderEntry (t : fileInfo) : GoString :=
  "\n\t\t\"".toList ++ t.Name ++ "\": \x7b ".toList ++ (toString t.Offset).toList ++
    ", ".toList ++ (toString t.Size).toList ++ "\x7d, ".toList

/-- The text `packageTemplate` produces for its data. -/
def packageTemplate (d : TemplateData) : GoString :=
  "// Code generated by go generate; DO NOT EDIT.\n\n// datafile: ".toList ++ d.OutFile ++
    "\n\npackage ".toList ++ d.Pkg ++
    "\n\nvar (\n\tBinData = map[string]struct\x7b offset, size int64 \x7d\x7b\n\t".toList ++
    (d.BinData.map renderEntry).flatten ++
    "\n\t\x7d\n\n\tBinDataSize int64 = ".toList ++ (toString d.BinDataSize).toList ++
    "\n)\n\n".toList

/-- The program `main`, after `flag.Parse()`: `fl` holds the option values
and `args` is `flag.Args()`.  The exit status is 1 after `Usage()` and after
`log.Fatal`, and 0 when `main` returns. -/
def main (w : World) (fl : Flags) (args : List GoString) : Outcome :=
  if args.length = 0 then
    -- Usage(); os.Exit(1)
    { code := 1, state := { State.init with usage := true } }
  else
    match compressFiles w fl.pfx args State.init with
    | .fatal s => { code := 1, state := s }
    | .ok tmpFiles s =>
      match assemble w fl.outfile tmpFiles s with
      | .fatal s1 => { code := 1, state := s1 }
      | .ok (offset, bindata) s1 =>
        if !w.createGo fl.gofile then { code := 1, state := s1 }
        else
          let d : TemplateData :=
            { OutFile := fl.outfile, Pkg := fl.pkg, BinData := bindata, BinDataSize := offset }
          -- packageTemplate.Execute(f, ...): the returned error is discarded
          let text :=
            match w.execute with
            | none => packageTemplate d
            | some n => (packageTemplate d).take n
          { code := 0, state := { s1 with goCreated := true, gotext := text, executed := some d } }

/-! ## Worlds to evaluate the program in -/

/-- A stand-in compressor: two magic bytes before the content. -/
def toyGzip (b : Bytes) : Bytes := 31 :: 139 :: b

/-- Reading the stand-in compressor's stream back. -/
def toyGunzip : Bytes → Option Bytes
  | 31 :: 139 :: b => some b
  | _ => none

/-- A world in which no call fails: `dirs` are the listings, `files` the
source files, `gz` the compressor, and the temporary file of unit `k` is
`/tmp/` followed by the pattern and `k`. -/
def calmWorld (gz : Bytes → Bytes) (dirs : List (GoString × List GoString))
    (files : List (GoString × Bytes)) : World :=
  { readDir := fun d => dirs.lookup d
    createTemp := fun k f => some ("/tmp/".toList ++ f ++ (toString k).toList)
    newWriter := fun _ => true
    openSrc := fun p => files.lookup p
    copyIn := fun _ => true
    stat := fun _ => true
    closeSrc := fun _ => true
    closeGz := fun _ => none
    gzip := gz
    gunzip := toyGunzip
    createOut := fun _ => true
    openTemp := fun _ => true
    copyOut := fun _ => true
    createGo := fun _ => true
    execute := none }

/-- The worked example: directory `assets` with `a.txt` ("hi") and `b.txt`
("world"), compressed with `gz`. -/
def exampleWorld (gz : Bytes → Bytes) : World :=
  calmWorld gz [("assets".toList, ["a.txt".toList, "b.txt".toList])]
    [("assets/a.txt".toList, [104, 105]), ("assets/b.txt".toList, [119, 111, 114, 108, 100])]

/-- The options of the worked example: `-prefix assets/`. -/
def exampleFlags : Flags := { defaultFlags with pfx := "assets/".toList }

/-! ## Specification-side definitions -/

/-- The entries found, in discovery order: directories in argument order,
the entries of each in listing order, as pairs of directory and entry name. -/
def discover (w : World) (args : List GoString) : List (GoString × GoString) :=
  args.flatMap (fun dir => ((w.readDir dir).getD []).map (fun f => (dir, f)))

/-- The name the specification gives an asset: the joined path of `dir` and
`f`, without the prefix `p` when `p` is a literal prefix of it, followed by
`.gz`. -/
def specName (p dir f : GoString) : GoString :=
  if p <+: pathJoin dir f then (pathJoin dir f).drop p.length ++ ".gz".toList
  else pathJoin dir f ++ ".gz".toList

/-- What a consumer reads: `blob[offset : offset+size]`. -/
def slice (blob : Bytes) (offset size : Int) : Bytes :=
  (blob.drop offset.toNat).take size.toNat

/-- The descriptors `ts` finalized for the copied contents `cs`, the first
one placed at `off`. -/
def finalize : List fileInfo → List Bytes → Int → List fileInfo
  | t :: ts, c :: cs, off =>
    { t with Offset := off, Size := (c.length : Int) } :: finalize ts cs (off + (c.length : Int))
  | _, _, _ => []

/-- The contents the assembly loop reads for `ts` from the temporary files
`temps`, each file being removed once read. -/
def copied : List fileInfo → List (GoString × Bytes) → List Bytes
  | [], _ => []
  | t :: ts, temps =>
    (temps.lookup t.TempFile).getD [] ::
      copied ts (temps.filter (fun e => e.1 != t.TempFile))

/-! ## Definitions used to state the theorems -/

/-- What `gz.Close()` of unit `k` leaves in the temporary file for the source
content `src`. -/
def written (w : World) (k : Nat) (src : Bytes) : Bytes :=
  match w.closeGz k with
  | none => w.gzip src
  | some n => (w.gzip src).take n

/-- The descriptor `compressFiles` appends for the entry `f` of `dir`. -/
def collected (p dir f tmp : GoString) : fileInfo :=
  { Name := assetName p (pathJoin dir f), Path := pathJoin dir f, TempFile := tmp,
    Offset := 0, Size := 0 }

/-- The temporary files hold, in order, the compressed sources of the
descriptors, under pairwise distinct names. -/
def TempsOk (w : World) (acc : List fileInfo) (s : State) : Prop :=
  List.Forall₂ (fun (t : fileInfo) (e : GoString × Bytes) =>
      e.1 = t.TempFile ∧ ∃ src, w.openSrc t.Path = some src ∧ e.2 = w.gzip src) acc s.temps ∧
    (s.temps.map Prod.fst).Nodup

/-- The value of a step that did not end in `log.Fatal`. -/
def Res.value {α : Type} : Res α → Option α
  | .ok a _ => some a
  | .fatal _ => none

/-- The two descriptors `compressFiles` returns in the worked example. -/
def exampleTmpFiles : List fileInfo :=
  [{ Name := "a.txt.gz".toList, Path := "assets/a.txt".toList,
     TempFile := "/tmp/a.txt0".toList, Offset := 0, Size := 0 },
   { Name := "b.txt.gz".toList, Path := "assets/b.txt".toList,
     TempFile := "/tmp/b.txt1".toList, Offset := 0, Size := 0 }]

/-- The state `compressFiles` leaves in the worked example, the two
temporary files holding `a` and `b`. -/
def exampleCompressed (a b : Bytes) : State :=
  { State.init with
    listed := ["assets".toList]
    temps := [("/tmp/a.txt0".toList, a), ("/tmp/b.txt1".toList, b)] }

/-- The descriptors of the worked example, finalized for artifacts of `m`
and `n` bytes. -/
def exampleBinData (m n : Nat) : List fileInfo :=
  [{ Name := "a.txt.gz".toList, Path := "assets/a.txt".toList,
     TempFile := "/tmp/a.txt0".toList, Offset := 0, Size := (m : Int) },
   { Name := "b.txt.gz".toList, Path := "assets/b.txt".toList,
     TempFile := "/tmp/b.txt1".toList, Offset := (m : Int), Size := (n : Int) }]

/-- The state the assembly leaves in the worked example. -/
def exampleAssembled (a b : Bytes) : State :=
  { State.init with
    listed := ["assets".toList]
    outCreated := true
    blob := a ++ b }

/-- The worked example with `a.txt` empty, its compressor failing in
`gz.Close()`: nothing was written while copying the empty source, and the
write of the stream at the close fails before any byte reaches the temporary
file. -/
def flushFailWorld : World :=
  { calmWorld toyGzip [("assets".toList, ["a.txt".toList, "b.txt".toList])]
      [("assets/a.txt".toList, []), ("assets/b.txt".toList, [119, 111, 114, 108, 100])] with
    closeGz := fun k => if k = 0 then some 0 else none }

/-- The worked example, the compressor of `b.txt` failing in `gz.Close()`
when only the first 3 bytes of its stream have reached the temporary file. -/
def truncatedWorld : World :=
  { exampleWorld toyGzip with closeGz := fun k => if k = 1 then some 3 else none }

/-- The worked example, `packageTemplate.Execute` failing before it has
written anything. -/
def renderFailWorld : World :=
  { exampleWorld toyGzip with execute := some 0 }

/-- The five checked calls of unit `k`, for the entry `f` of `dir`, all
succeed. -/
def Checked (w : World) (k : Nat) (dir f : GoString) : Prop :=
  (w.createTemp k f).isSome = true ∧ w.newWriter k = true ∧
    (w.openSrc (pathJoin dir f)).isSome = true ∧ w.copyIn k = true ∧ w.stat k = true

/-- The worked example, every `inf.Close()` returning an error. -/
def closeFailWorld : World :=
  { exampleWorld toyGzip with closeSrc := fun _ => false }

/-! ## Strings -/

/-- A real path element has at least one character. -/
theorem elem_nonempty (path : GoString) (r : Nat) (hr : r < path.length)
    (hs : ¬ (path[r]? == some '/') = true) :
    1 ≤ ((path.drop r).takeWhile (fun c => c != '/')).length := by
  rw [List.drop_eq_getElem_cons hr]
  have hne : path[r] ≠ '/' := by
    intro hEq
    apply hs
    rw [List.getElem?_eq_getElem hr, hEq]
    rfl
  rw [List.takeWhile_cons_of_pos (by simpa using hne)]
  simp

/-- More fuel than the characters left to process changes nothing. -/
theorem cleanLoop_fuel (path : GoString) (rooted : Bool) (fuel extra r : Nat) (out : GoString)
    (dd : Nat) (h : path.length - r ≤ fuel) :
    cleanLoop path rooted (fuel + extra) r out dd = cleanLoop path rooted fuel r out dd := by
  induction fuel generalizing r out dd with
  | zero =>
    cases extra with
    | zero => rfl
    | succ e =>
      have hr : ¬ r < path.length := by omega
      simp [cleanLoop, hr]
  | succ fuel ih =>
    have e1 : fuel + 1 + extra = (fuel + extra) + 1 := by omega
    rw [e1]
    unfold cleanLoop
    simp only
    split
    · rename_i hr
      split
      · exact ih _ _ _ (by omega)
      · rename_i hs
        split
        · exact ih _ _ _ (by omega)
        · split
          · split
            · exact ih _ _ _ (by omega)
            · split
              · exact ih _ _ _ (by omega)
              · exact ih _ _ _ (by omega)
          · have := elem_nonempty path r hr hs
            exact ih _ _ _ (by omega)
    · rfl

theorem hasPrefix_iff (s p : GoString) : HasPrefix s p = true ↔ p <+: s := by
  unfold HasPrefix
  rw [List.prefix_iff_eq_take]
  constructor
  · intro h
    simp only [Bool.and_eq_true, decide_eq_true_eq, beq_iff_eq] at h
    exact h.2.symm
  · intro h
    simp only [Bool.and_eq_true, decide_eq_true_eq, beq_iff_eq]
    refine ⟨?_, h.symm⟩
    have := congrArg List.length h
    simp only [List.length_take] at this
    omega

theorem trimPrefix_append (p rest : GoString) : TrimPrefix (p ++ rest) p = rest := by
  unfold TrimPrefix
  rw [if_pos ((hasPrefix_iff _ _).2 (List.prefix_append p rest))]
  simp

theorem trimPrefix_unchanged (s p : GoString) (h : ¬ p <+: s) : TrimPrefix s p = s := by
  unfold TrimPrefix
  rw [if_neg]
  rw [hasPrefix_iff]
  exact h

theorem trimPrefix_nil (s : GoString) : TrimPrefix s [] = s := by
  simpa using trimPrefix_append [] s

theorem assetName_eq_specName (p dir f : GoString) :
    assetName p (pathJoin dir f) = specName p dir f := by
  unfold assetName specName
  by_cases h : p <+: pathJoin dir f
  · rw [if_pos h]
    obtain ⟨rest, hr⟩ := h
    rw [← hr, trimPrefix_append]
    simp
  · rw [if_neg h, trimPrefix_unchanged _ _ h]

/-! ## The assembly loop -/

theorem wrap64_of_fits (x : Int) (h0 : 0 ≤ x) (h1 : x ≤ 9223372036854775807) : wrap64 x = x := by
  unfold wrap64
  omega

theorem length_copied (ts : List fileInfo) (temps : List (GoString × Bytes)) :
    (copied ts temps).length = ts.length := by
  induction ts generalizing temps with
  | nil => rfl
  | cons t ts ih => simp [copied, ih]

theorem length_finalize (ts : List fileInfo) (cs : List Bytes) (off : Int)
    (h : cs.length = ts.length) : (finalize ts cs off).length = ts.length := by
  induction ts generalizing cs off with
  | nil => cases cs <;> rfl
  | cons t ts ih =>
    cases cs with
    | nil => simp at h
    | cons c cs =>
      simp only [List.length_cons, Nat.add_right_cancel_iff] at h
      simp [finalize, ih cs _ h]

/-- The loop, when it completes, has finalized the descriptors for the
contents it read, appended these contents to the blob, and its offset is the
length of the blob. -/
theorem assembleLoop_ok (w : World) (ts : List fileInfo) (i : Nat) (off : Int)
    (bd : List fileInfo) (s : State) (off1 : Int) (bd1 : List fileInfo) (s1 : State)
    (hoff : off = (s.blob.length : Int)) (hfit : s.blob.length ≤ maxInt64)
    (h : assembleLoop w ts i off bd s = .ok (off1, bd1) s1) :
    bd1 = bd ++ finalize ts (copied ts s.temps) off ∧
      s1.blob = s.blob ++ (copied ts s.temps).flatten ∧
      off1 = (s1.blob.length : Int) ∧ s1.blob.length ≤ maxInt64 ∧
      s1.usage = s.usage ∧ s1.listed = s.listed ∧ s1.outCreated = s.outCreated ∧
      s1.goCreated = s.goCreated ∧ s1.executed = s.executed := by
  induction ts generalizing i off bd s with
  | nil =>
    simp only [assembleLoop, Res.ok.injEq, Prod.mk.injEq] at h
    obtain ⟨⟨h1, h2⟩, h3⟩ := h
    subst h1 h2 h3
    simp [finalize, copied, hoff, hfit]
  | cons t ts ih =>
    simp only [assembleLoop] at h
    split at h
    · cases h
    · split at h
      · cases h
      · rename_i content hlook
        split at h
        · cases h
        · rename_i hcond
          simp only [Bool.or_eq_true, Bool.not_eq_true', decide_eq_true_eq, not_or,
            Bool.not_eq_false, not_lt] at hcond
          have hlen : s.blob.length + content.length ≤ 9223372036854775807 := by
            have := hcond.2
            unfold maxInt64 at this
            exact this
          have hw : wrap64 (off + (content.length : Int)) =
              ((s.blob ++ content).length : Int) := by
            rw [wrap64_of_fits _ (by omega) (by omega), hoff]
            simp
          rw [hw] at h
          have hfit1 : (s.blob ++ content).length ≤ maxInt64 := by
            rw [List.length_append]; unfold maxInt64; omega
          have := ih (i + 1) _ _
            { s with blob := s.blob ++ content,
                     temps := s.temps.filter (fun e => e.1 != t.TempFile) } rfl hfit1 h
          obtain ⟨h1, h2, h3, h4, h5, h6, h7, h8, h9⟩ := this
          refine ⟨?_, ?_, h3, h4, h5, h6, h7, h8, h9⟩
          · rw [h1]
            simp only [copied, hlook, Option.getD_some, finalize, List.append_assoc,
              List.singleton_append, List.length_append, Nat.cast_add, hoff]
          · rw [h2]
            simp only [copied, hlook, Option.getD_some, List.flatten_cons, List.append_assoc]

theorem finalize_lower (ts : List fileInfo) (cs : List Bytes) (off : Int) :
    ∀ a ∈ finalize ts cs off, off ≤ a.Offset ∧ 0 ≤ a.Size := by
  induction ts generalizing cs off with
  | nil => intro a ha; cases cs <;> simp [finalize] at ha
  | cons t ts ih =>
    cases cs with
    | nil => intro a ha; simp [finalize] at ha
    | cons c cs =>
      intro a ha
      simp only [finalize, List.mem_cons] at ha
      rcases ha with rfl | ha
      · simp
      · have := ih cs _ a ha
        omega

theorem finalize_head (ts : List fileInfo) (cs : List Bytes) (off : Int) (a : fileInfo)
    (h : (finalize ts cs off)[0]? = some a) : a.Offset = off := by
  cases ts with
  | nil => cases cs <;> simp [finalize] at h
  | cons t ts =>
    cases cs with
    | nil => simp [finalize] at h
    | cons c cs =>
      simp only [finalize, List.getElem?_cons_zero, Option.some.injEq] at h
      rw [← h]

theorem finalize_contig (ts : List fileInfo) (cs : List Bytes) (off : Int) (i : Nat)
    (a b : fileInfo) (ha : (finalize ts cs off)[i]? = some a)
    (hb : (finalize ts cs off)[i + 1]? = some b) : b.Offset = a.Offset + a.Size := by
  induction ts generalizing cs off i with
  | nil => cases cs <;> simp [finalize] at ha
  | cons t ts ih =>
    cases cs with
    | nil => simp [finalize] at ha
    | cons c cs =>
      simp only [finalize, List.getElem?_cons_succ] at hb
      cases i with
      | zero =>
        simp only [finalize, List.getElem?_cons_zero, Option.some.injEq] at ha
        rw [finalize_head _ _ _ _ hb, ← ha]
      | succ i =>
        simp only [finalize, List.getElem?_cons_succ] at ha
        exact ih cs _ i ha hb

theorem finalize_mono (ts : List fileInfo) (cs : List Bytes) (off : Int) :
    (finalize ts cs off).Pairwise (fun a b => a.Offset ≤ b.Offset) := by
  induction ts generalizing cs off with
  | nil => cases cs <;> simp [finalize]
  | cons t ts ih =>
    cases cs with
    | nil => simp [finalize]
    | cons c cs =>
      simp only [finalize, List.pairwise_cons]
      refine ⟨?_, ih cs _⟩
      intro b hb
      have := finalize_lower ts cs _ b hb
      omega

theorem finalize_strict (ts : List fileInfo) (cs : List Bytes) (off : Int)
    (hpos : ∀ a ∈ finalize ts cs off, 0 < a.Size) :
    (finalize ts cs off).Pairwise (fun a b => a.Offset < b.Offset) := by
  induction ts generalizing cs off with
  | nil => cases cs <;> simp [finalize]
  | cons t ts ih =>
    cases cs with
    | nil => simp [finalize]
    | cons c cs =>
      simp only [finalize, List.pairwise_cons]
      simp only [finalize, List.mem_cons, forall_eq_or_imp] at hpos
      refine ⟨?_, ih cs _ hpos.2⟩
      intro b hb
      have := finalize_lower ts cs _ b hb
      have := hpos.1
      omega

theorem finalize_sum (ts : List fileInfo) (cs : List Bytes) (off : Int)
    (h : cs.length = ts.length) :
    ((finalize ts cs off).map (fun t => t.Size)).sum = (cs.flatten.length : Int) := by
  induction ts generalizing cs off with
  | nil =>
    cases cs with
    | nil => simp [finalize]
    | cons c cs => simp at h
  | cons t ts ih =>
    cases cs with
    | nil => simp at h
    | cons c cs =>
      simp only [List.length_cons, Nat.add_right_cancel_iff] at h
      simp only [finalize, List.map_cons, List.sum_cons, List.flatten_cons, List.length_append,
        Nat.cast_add, ih cs _ h]

theorem finalize_names (ts : List fileInfo) (cs : List Bytes) (off : Int)
    (h : cs.length = ts.length) :
    (finalize ts cs off).map (fun t => (t.Name, t.Path)) = ts.map (fun t => (t.Name, t.Path)) := by
  induction ts generalizing cs off with
  | nil => cases cs <;> simp [finalize]
  | cons t ts ih =>
    cases cs with
    | nil => simp at h
    | cons c cs =>
      simp only [List.length_cons, Nat.add_right_cancel_iff] at h
      simp only [finalize, List.map_cons, ih cs _ h]

/-- The `i`-th finalized descriptor: where it starts and how long it is. -/
theorem finalize_getElem (ts : List fileInfo) (cs : List Bytes) (off : Int) (i : Nat)
    (a : fileInfo) (ha : (finalize ts cs off)[i]? = some a) :
    ∃ t c, ts[i]? = some t ∧ cs[i]? = some c ∧ a.Path = t.Path ∧ a.Name = t.Name ∧
      a.Offset = off + ((cs.take i).flatten.length : Int) ∧ a.Size = (c.length : Int) := by
  induction ts generalizing cs off i with
  | nil => cases cs <;> simp [finalize] at ha
  | cons t ts ih =>
    cases cs with
    | nil => simp [finalize] at ha
    | cons c cs =>
      cases i with
      | zero =>
        simp only [finalize, List.getElem?_cons_zero, Option.some.injEq] at ha
        refine ⟨t, c, by simp, by simp, ?_⟩
        rw [← ha]
        simp
      | succ i =>
        simp only [finalize, List.getElem?_cons_succ] at ha
        obtain ⟨t1, c1, h1, h2, h3, h4, h5, h6⟩ := ih cs _ i ha
        refine ⟨t1, c1, by simpa using h1, by simpa using h2, h3, h4, ?_, h6⟩
        rw [h5]
        simp only [List.take_succ_cons, List.flatten_cons, List.length_append, Nat.cast_add]
        omega

/-- Reading the `i`-th content back out of the concatenation. -/
theorem slice_flatten (cs : List Bytes) (i : Nat) (c : Bytes) (h : cs[i]? = some c) :
    (cs.flatten.drop (cs.take i).flatten.length).take c.length = c := by
  induction cs generalizing i with
  | nil => simp at h
  | cons c0 cs ih =>
    cases i with
    | zero =>
      simp only [List.getElem?_cons_zero, Option.some.injEq] at h
      subst h
      simp
    | succ i =>
      simp only [List.getElem?_cons_succ] at h
      simp only [List.take_succ_cons, List.flatten_cons, List.length_append]
      rw [List.drop_append]
      exact ih i h

/-! ## The compression phase -/

theorem lookup_isSome (l : List (GoString × Bytes)) (a : GoString) :
    (l.lookup a).isSome = true ↔ a ∈ l.map Prod.fst := by
  induction l with
  | nil => simp
  | cons e l ih =>
    obtain ⟨k, v⟩ := e
    by_cases hk : a = k
    · subst hk; simp
    · have hb : (a == k) = false := by simpa using hk
      simp only [List.lookup_cons, hb, ih, List.map_cons, List.mem_cons, hk, false_or]

/-- A unit returns normally exactly through the one path on which its five
checked calls succeed. -/
theorem compressUnit_ok (w : World) (p dir f : GoString) (acc acc1 : List fileInfo)
    (s s1 : State) (h : compressUnit w p dir f acc s = .ok acc1 s1) :
    ∃ tmp src, w.createTemp acc.length f = some tmp ∧ tmp ∉ s.temps.map Prod.fst ∧
      w.newWriter acc.length = true ∧ w.openSrc (pathJoin dir f) = some src ∧
      w.copyIn acc.length = true ∧ w.stat acc.length = true ∧
      acc1 = acc ++ [collected p dir f tmp] ∧
      s1 = { s with temps := s.temps ++ [(tmp, written w acc.length src)] } := by
  unfold compressUnit at h
  simp only at h
  split at h
  · cases h
  · rename_i tmp htmp
    split at h
    · cases h
    · rename_i hex
      split at h
      · cases h
      · rename_i hnw
        split at h
        · cases h
        · rename_i src hsrc
          split at h
          · cases h
          · rename_i hcp
            split at h
            · cases h
            · rename_i hst
              simp only [Res.ok.injEq] at h
              refine ⟨tmp, src, htmp, ?_, by simpa using hnw, hsrc, by simpa using hcp,
                by simpa using hst, h.1.symm, ?_⟩
              · rw [← lookup_isSome]; exact hex
              · rw [← h.2]; rfl

theorem compressUnit_inv (w : World) (hclose : ∀ k, w.closeGz k = none) (p dir f : GoString)
    (acc acc1 : List fileInfo) (s s1 : State) (hinv : TempsOk w acc s)
    (h : compressUnit w p dir f acc s = .ok acc1 s1) : TempsOk w acc1 s1 := by
  obtain ⟨tmp, src, -, hfresh, -, hsrc, -, -, hacc, hs⟩ := compressUnit_ok w p dir f acc acc1 s s1 h
  subst hacc hs
  refine ⟨List.rel_append hinv.1 ?_, ?_⟩
  · refine List.Forall₂.cons ⟨rfl, src, hsrc, ?_⟩ List.Forall₂.nil
    simp [written, hclose]
  · simp only [List.map_append, List.map_cons, List.map_nil]
    rw [List.nodup_append]
    refine ⟨hinv.2, by simp, ?_⟩
    intro a ha hb
    simp only [List.mem_singleton] at hb
    subst hb
    exact hfresh ha

theorem compressDir_ok (w : World) (p dir : GoString) (files : List GoString)
    (acc acc1 : List fileInfo) (s s1 : State)
    (h : compressDir w p dir files acc s = .ok acc1 s1) :
    acc1.map (fun t => (t.Name, t.Path)) = acc.map (fun t => (t.Name, t.Path)) ++
        files.map (fun f => (assetName p (pathJoin dir f), pathJoin dir f)) ∧
      ((∀ k, w.closeGz k = none) → TempsOk w acc s → TempsOk w acc1 s1) := by
  induction files generalizing acc s with
  | nil =>
    simp only [compressDir, Res.ok.injEq] at h
    obtain ⟨rfl, rfl⟩ := h
    simp
  | cons f fs ih =>
    simp only [compressDir] at h
    split at h
    · cases h
    · rename_i acc2 s2 hu
      obtain ⟨h1, h2⟩ := ih acc2 s2 h
      obtain ⟨tmp, src, -, -, -, -, -, -, hacc, -⟩ := compressUnit_ok w p dir f acc acc2 s s2 hu
      refine ⟨?_, fun hc hinv => h2 hc (compressUnit_inv w hc p dir f acc acc2 s s2 hinv hu)⟩
      rw [h1, hacc]
      simp [collected]

theorem compressDirs_ok (w : World) (p : GoString) (ds : List GoString)
    (acc acc1 : List fileInfo) (s s1 : State)
    (h : compressDirs w p ds acc s = .ok acc1 s1) :
    acc1.map (fun t => (t.Name, t.Path)) = acc.map (fun t => (t.Name, t.Path)) ++
        (discover w ds).map (fun e => (assetName p (pathJoin e.1 e.2), pathJoin e.1 e.2)) ∧
      ((∀ k, w.closeGz k = none) → TempsOk w acc s → TempsOk w acc1 s1) := by
  induction ds generalizing acc s with
  | nil =>
    simp only [compressDirs, Res.ok.injEq] at h
    obtain ⟨rfl, rfl⟩ := h
    simp [discover]
  | cons d ds ih =>
    simp only [compressDirs] at h
    split at h
    · cases h
    · rename_i files hrd
      split at h
      · cases h
      · rename_i acc2 s2 hd
        obtain ⟨h1, h2⟩ := ih acc2 s2 h
        obtain ⟨h3, h4⟩ := compressDir_ok w p d files acc acc2 _ s2 hd
        refine ⟨?_, fun hc hinv => h2 hc (h4 hc hinv)⟩
        rw [h1, h3]
        simp [discover, hrd, List.map_flatMap]

/-- What `compressFiles` returns when it returns: one descriptor per entry
found, in discovery order, named by `assetName`. -/
theorem compressFiles_ok (w : World) (p : GoString) (args : List GoString)
    (tmpFiles : List fileInfo) (s1 : State)
    (h : compressFiles w p args State.init = .ok tmpFiles s1) :
    tmpFiles.map (fun t => (t.Name, t.Path)) =
        (discover w args).map (fun e => (assetName p (pathJoin e.1 e.2), pathJoin e.1 e.2)) ∧
      ((∀ k, w.closeGz k = none) → TempsOk w tmpFiles s1) := by
  obtain ⟨h1, h2⟩ := compressDirs_ok w p args [] tmpFiles State.init s1 h
  refine ⟨by simpa using h1, fun hc => h2 hc ?_⟩
  exact ⟨List.Forall₂.nil, by simp [State.init]⟩

/-- With the temporary files in the order of the descriptors and under
distinct names, the loop reads each file's content in turn. -/
theorem copied_eq (ts : List fileInfo) (temps : List (GoString × Bytes))
    (h : List.Forall₂ (fun (t : fileInfo) (e : GoString × Bytes) => e.1 = t.TempFile) ts temps)
    (hnd : (temps.map Prod.fst).Nodup) : copied ts temps = temps.map Prod.snd := by
  induction h with
  | nil => rfl
  | @cons t e ts temps hte _ ih =>
    obtain ⟨k, v⟩ := e
    simp only at hte
    subst hte
    simp only [List.map_cons, List.nodup_cons] at hnd
    have hfil : (List.filter (fun e => e.1 != t.TempFile) ((t.TempFile, v) :: temps)) = temps := by
      rw [List.filter_cons_of_neg (by simp)]
      rw [List.filter_eq_self]
      intro a ha
      have : a.1 ≠ t.TempFile := by
        intro hEq
        exact hnd.1 (hEq ▸ List.mem_map_of_mem Prod.fst ha)
      simpa using this
    simp only [copied, List.lookup_cons_self, Option.getD_some, hfil, List.map_cons, ih hnd.2]

/-! ## main -/

theorem finalize_sizes (ts : List fileInfo) (cs : List Bytes) (off : Int)
    (h : cs.length = ts.length) :
    (finalize ts cs off).map (fun t => t.Size) = cs.map (fun c => (c.length : Int)) := by
  induction ts generalizing cs off with
  | nil =>
    cases cs with
    | nil => simp [finalize]
    | cons c cs => simp at h
  | cons t ts ih =>
    cases cs with
    | nil => simp at h
    | cons c cs =>
      simp only [List.length_cons, Nat.add_right_cancel_iff] at h
      simp only [finalize, List.map_cons, ih cs _ h]

/-- Lines 121-148, when they complete. -/
theorem assemble_ok (w : World) (outfile : GoString) (tmpFiles : List fileInfo) (s : State)
    (off : Int) (bd : List fileInfo) (s1 : State)
    (h : assemble w outfile tmpFiles s = .ok (off, bd) s1) :
    w.createOut outfile = true ∧
      bd = finalize tmpFiles (copied tmpFiles s.temps) 0 ∧
      s1.blob = (copied tmpFiles s.temps).flatten ∧
      off = (s1.blob.length : Int) ∧ s1.blob.length ≤ maxInt64 := by
  unfold assemble at h
  split at h
  · cases h
  · rename_i hc
    have := assembleLoop_ok w tmpFiles 0 0 [] { s with outCreated := true, blob := [] } off bd s1
      (by simp) (by simp) h
    obtain ⟨h1, h2, h3, h4, -⟩ := this
    exact ⟨by simpa using hc, by simpa using h1, by simpa using h2, h3, h4⟩

/-- One iteration of the assembly loop in which nothing fails. -/
theorem assembleLoop_step (w : World) (t : fileInfo) (ts : List fileInfo) (i : Nat) (off : Int)
    (bd : List fileInfo) (s : State) (c : Bytes) (hopen : w.openTemp i = true)
    (hlook : s.temps.lookup t.TempFile = some c) (hcopy : w.copyOut i = true)
    (hfit : s.blob.length + c.length ≤ maxInt64) :
    assembleLoop w (t :: ts) i off bd s =
      assembleLoop w ts (i + 1) (wrap64 (off + (c.length : Int)))
        (bd ++ [{ t with Offset := off, Size := (c.length : Int) }])
        { s with blob := s.blob ++ c, temps := s.temps.filter (fun e => e.1 != t.TempFile) } := by
  have hnot : ¬ (maxInt64 < s.blob.length + c.length) := by omega
  simp [assembleLoop, hopen, hlook, hcopy, hnot]

/-- A run that ends with status 0 went through `compressFiles`, the assembly
and `os.Create(gofile)` without a fatal error, and executed the template on
the finalized descriptors and the final offset. -/
theorem main_done (w : World) (fl : Flags) (args : List GoString)
    (h : (main w fl args).code = 0) :
    ∃ tmpFiles s1 off bd s2,
      compressFiles w fl.pfx args State.init = .ok tmpFiles s1 ∧
      assemble w fl.outfile tmpFiles s1 = .ok (off, bd) s2 ∧
      (main w fl args).state.blob = s2.blob ∧
      (main w fl args).state.executed =
        some { OutFile := fl.outfile, Pkg := fl.pkg, BinData := bd, BinDataSize := off } := by
  unfold main at h ⊢
  split at h
  · simp at h
  · rename_i hargs
    rw [if_neg hargs]
    split at h
    · simp at h
    · rename_i tmpFiles s1 hc
      split at h
      · simp at h
      · rename_i off bd s2 ha
        split at h
        · simp at h
        · rename_i hgo
          refine ⟨tmpFiles, s1, off, bd, s2, hc, ha, ?_⟩
          simp only [hc, ha, hgo]
          simp

theorem forall₂_at {α β : Type} {R : α → β → Prop} {l1 : List α} {l2 : List β}
    (h : List.Forall₂ R l1 l2) (i : Nat) (a : α) (b : β) (ha : l1[i]? = some a)
    (hb : l2[i]? = some b) : R a b := by
  induction h generalizing i with
  | nil => simp at ha
  | cons hab _ ih =>
    cases i with
    | zero =>
      simp only [List.getElem?_cons_zero, Option.some.injEq] at ha hb
      subst ha hb
      exact hab
    | succ i =>
      simp only [List.getElem?_cons_succ] at ha hb
      exact ih i ha hb

theorem discover_congr (w w2 : World) (args : List GoString)
    (h : ∀ dir ∈ args, w2.readDir dir = w.readDir dir) : discover w2 args = discover w args := by
  induction args with
  | nil => rfl
  | cons d ds ih =>
    have hd := h d (List.mem_cons_self d ds)
    have := ih (fun dir hdir => h dir (List.mem_cons_of_mem d hdir))
    unfold discover at this ⊢
    simp only [List.flatMap_cons, hd, this]

theorem names_of_pairs (l : List fileInfo) :
    l.map (fun t => t.Name) = (l.map (fun t => (t.Name, t.Path))).map Prod.fst := by
  simp

/-! ## The claims -/

/-- The arithmetic of the assembly: when the assembly of `main` completes,
there is one finalized descriptor per artifact, the first offset is 0, every offset is the
previous offset plus the previous size, the sizes are the copied byte counts,
the offsets never decrease, and they are strictly increasing when every
copied size is positive. -/
theorem offset_contiguity (w : World) (outfile : GoString) (tmpFiles : List fileInfo)
    (s : State) (off : Int) (bd : List fileInfo) (s1 : State)
    (h : assemble w outfile tmpFiles s = .ok (off, bd) s1) :
    bd.length = tmpFiles.length ∧
      (∀ a, bd[0]? = some a → a.Offset = 0) ∧
      (∀ i a b, bd[i]? = some a → bd[i + 1]? = some b → b.Offset = a.Offset + a.Size) ∧
      bd.map (fun t => t.Size) = (copied tmpFiles s.temps).map (fun c => (c.length : Int)) ∧
      bd.Pairwise (fun a b => a.Offset ≤ b.Offset) ∧
      ((∀ a ∈ bd, 0 < a.Size) → bd.Pairwise (fun a b => a.Offset < b.Offset)) := by
  obtain ⟨-, hbd, -, -, -⟩ := assemble_ok w outfile tmpFiles s off bd s1 h
  subst hbd
  have hlen := length_copied tmpFiles s.temps
  exact ⟨length_finalize _ _ _ hlen, fun a ha => finalize_head _ _ _ a ha,
    fun i a b ha hb => finalize_contig _ _ _ i a b ha hb, finalize_sizes _ _ _ hlen,
    finalize_mono _ _ _, fun hpos => finalize_strict _ _ _ hpos⟩

/-- C2: when the assembly of `main` completes, the sizes of the finalized
descriptors add up to the number of bytes written to the blob, and so does
the final offset; and a run that ends normally has handed the template these
descriptors and, as `BinDataSize`, that same sum. -/
theorem size_conservation (w : World) :
    (∀ outfile tmpFiles s off bd s1, assemble w outfile tmpFiles s = .ok (off, bd) s1 →
        (bd.map (fun t => t.Size)).sum = (s1.blob.length : Int) ∧
        off = (bd.map (fun t => t.Size)).sum) ∧
      (∀ fl args, (main w fl args).code = 0 →
        ∃ d, (main w fl args).state.executed = some d ∧
          (d.BinData.map (fun t => t.Size)).sum = ((main w fl args).state.blob.length : Int) ∧
          d.BinDataSize = (d.BinData.map (fun t => t.Size)).sum) := by
  have key : ∀ outfile tmpFiles s off bd s1, assemble w outfile tmpFiles s = .ok (off, bd) s1 →
      (bd.map (fun t => t.Size)).sum = (s1.blob.length : Int) ∧
      off = (bd.map (fun t => t.Size)).sum := by
    intro outfile tmpFiles s off bd s1 h
    obtain ⟨-, hbd, hblob, hoff, -⟩ := assemble_ok w outfile tmpFiles s off bd s1 h
    have hsum := finalize_sum tmpFiles (copied tmpFiles s.temps) 0 (length_copied _ _)
    rw [← hbd, ← hblob] at hsum
    exact ⟨hsum, by rw [hsum, hoff]⟩
  refine ⟨key, ?_⟩
  intro fl args hrun
  obtain ⟨tmpFiles, s1, off, bd, s2, -, ha, hblob, hex⟩ := main_done w fl args hrun
  obtain ⟨h1, h2⟩ := key _ _ _ _ _ _ ha
  exact ⟨_, hex, by rw [hblob]; exact h1, h2⟩

/-- C3: the names `compressFiles` returns are, entry by entry in discovery
order, the names of the specification: the joined path without the prefix
when the prefix is a literal prefix of it, followed by `.gz`; the joined path
itself followed by `.gz` when the prefix is empty or not a prefix. -/
theorem name_derivation (w : World) (p : GoString) (args : List GoString)
    (tmpFiles : List fileInfo) (s s1 : State)
    (h : compressFiles w p args s = .ok tmpFiles s1) :
    tmpFiles.map (fun t => t.Name) = (discover w args).map (fun e => specName p e.1 e.2) ∧
      (∀ dir f rest, pathJoin dir f = p ++ rest →
        assetName p (pathJoin dir f) = rest ++ ".gz".toList) ∧
      (∀ dir f, p = [] ∨ ¬ p <+: pathJoin dir f →
        assetName p (pathJoin dir f) = pathJoin dir f ++ ".gz".toList) := by
  refine ⟨?_, ?_, ?_⟩
  · obtain ⟨h1, -⟩ := compressDirs_ok w p args [] tmpFiles s s1 h
    rw [names_of_pairs, h1]
    simp [assetName_eq_specName]
  · intro dir f rest hr
    unfold assetName
    rw [hr, trimPrefix_append]
  · intro dir f hp
    unfold assetName
    rcases hp with rfl | hp
    · rw [trimPrefix_nil]
    · rw [trimPrefix_unchanged _ _ hp]

/-- The round trip when no close error was dropped: in a run that ends
normally and in which every compressor was flushed and closed without error, for every packed asset the bytes
`blob[offset : offset+size]` are the compressed stream of its source file,
and decompressing them gives back the content of that source file (the
compressor being one whose streams decompress to their input). -/
theorem round_trip (w : World) (fl : Flags) (args : List GoString)
    (hrt : ∀ b, w.gunzip (w.gzip b) = some b) (hclose : ∀ k, w.closeGz k = none)
    (hrun : (main w fl args).code = 0) :
    ∃ d, (main w fl args).state.executed = some d ∧
      ∀ (i : Nat) (t : fileInfo), d.BinData[i]? = some t →
        ∃ src, w.openSrc t.Path = some src ∧
          slice (main w fl args).state.blob t.Offset t.Size = w.gzip src ∧
          w.gunzip (slice (main w fl args).state.blob t.Offset t.Size) = some src := by
  obtain ⟨tmpFiles, s1, off, bd, s2, hc, ha, hblob, hex⟩ := main_done w fl args hrun
  refine ⟨_, hex, ?_⟩
  intro i t ht
  simp only at ht
  obtain ⟨-, hinv⟩ := compressFiles_ok w fl.pfx args tmpFiles s1 hc
  obtain ⟨hf2, hnd⟩ := hinv hclose
  obtain ⟨-, hbd, hb, -, -⟩ := assemble_ok w fl.outfile tmpFiles s1 off bd s2 ha
  have hcop : copied tmpFiles s1.temps = s1.temps.map Prod.snd :=
    copied_eq tmpFiles s1.temps (hf2.imp (fun _ _ hR => hR.1)) hnd
  rw [hcop] at hbd hb
  rw [hbd] at ht
  obtain ⟨t0, c, ht0, hc0, hpath, -, hoff, hsize⟩ := finalize_getElem _ _ _ i t ht
  rw [List.getElem?_map] at hc0
  cases he : s1.temps[i]? with
  | none => rw [he] at hc0; simp at hc0
  | some e =>
    rw [he] at hc0
    simp only [Option.map_some', Option.some.injEq] at hc0
    obtain ⟨-, src, hsrc, hgz⟩ := forall₂_at hf2 i t0 e ht0 he
    have hslice : slice (main w fl args).state.blob t.Offset t.Size = w.gzip src := by
      rw [hblob, hb, hoff, hsize]
      unfold slice
      have h1 : ((0 : Int) + ((List.take i (s1.temps.map Prod.snd)).flatten.length : Int)).toNat =
          (List.take i (s1.temps.map Prod.snd)).flatten.length := by
        rw [Int.zero_add, Int.toNat_ofNat]
      rw [h1, Int.toNat_ofNat]
      have hci : (s1.temps.map Prod.snd)[i]? = some c := by
        rw [List.getElem?_map, he, Option.map_some', hc0]
      rw [slice_flatten _ i c hci, ← hc0, hgz]
    refine ⟨src, by rw [hpath]; exact hsrc, hslice, ?_⟩
    rw [hslice]
    exact hrt src

/-- C5: in a run that ends normally the descriptors handed to the template
are, one per entry found and in discovery order, the entries with the name
and path given at collection; so a second run over the same directories with
the same listings hands the template the same sequence of names. -/
theorem discovery_order (w : World) (fl : Flags) (args : List GoString)
    (hrun : (main w fl args).code = 0) :
    ∃ d, (main w fl args).state.executed = some d ∧
      d.BinData.map (fun t => (t.Name, t.Path)) =
        (discover w args).map
          (fun e => (assetName fl.pfx (pathJoin e.1 e.2), pathJoin e.1 e.2)) ∧
      ∀ w2 : World, (∀ dir ∈ args, w2.readDir dir = w.readDir dir) →
        (main w2 fl args).code = 0 →
        ∃ d2, (main w2 fl args).state.executed = some d2 ∧
          d2.BinData.map (fun t => t.Name) = d.BinData.map (fun t => t.Name) := by
  have key : ∀ w0 : World, (main w0 fl args).code = 0 →
      ∃ d, (main w0 fl args).state.executed = some d ∧
        d.BinData.map (fun t => (t.Name, t.Path)) =
          (discover w0 args).map
            (fun e => (assetName fl.pfx (pathJoin e.1 e.2), pathJoin e.1 e.2)) := by
    intro w0 h0
    obtain ⟨tmpFiles, s1, off, bd, s2, hc, ha, -, hex⟩ := main_done w0 fl args h0
    refine ⟨_, hex, ?_⟩
    obtain ⟨hnames, -⟩ := compressFiles_ok w0 fl.pfx args tmpFiles s1 hc
    obtain ⟨-, hbd, -, -, -⟩ := assemble_ok w0 fl.outfile tmpFiles s1 off bd s2 ha
    simp only
    rw [hbd, finalize_names _ _ _ (length_copied _ _), hnames]
  obtain ⟨d, hd, hnp⟩ := key w hrun
  refine ⟨d, hd, hnp, ?_⟩
  intro w2 hsame hrun2
  obtain ⟨d2, hd2, hnp2⟩ := key w2 hrun2
  refine ⟨d2, hd2, ?_⟩
  rw [names_of_pairs, names_of_pairs d.BinData, hnp2, hnp, discover_congr w w2 args hsame]

theorem example_compress (gz : Bytes → Bytes) :
    compressFiles (exampleWorld gz) "assets/".toList ["assets".toList] State.init =
      .ok exampleTmpFiles (exampleCompressed (gz [104, 105]) (gz [119, 111, 114, 108, 100])) :=
  rfl

theorem example_assemble (w : World) (outfile : GoString) (a b : Bytes)
    (hout : w.createOut outfile = true) (hopen : ∀ i, w.openTemp i = true)
    (hcopy : ∀ i, w.copyOut i = true) (hfit : a.length + b.length ≤ maxInt64) :
    assemble w outfile exampleTmpFiles (exampleCompressed a b) =
      .ok (((a.length + b.length : Nat) : Int), exampleBinData a.length b.length)
        (exampleAssembled a b) := by
  unfold assemble
  rw [hout]
  simp only [Bool.not_true, Bool.false_eq_true, if_false]
  unfold exampleTmpFiles
  have hfit0 : a.length + b.length ≤ 9223372036854775807 := hfit
  rw [assembleLoop_step w _ _ 0 0 [] _ a (hopen 0) (by rfl) (hcopy 0)
    (by simp only [List.length_nil]; unfold maxInt64; omega)]
  rw [assembleLoop_step w _ _ 1 _ _ _ b (hopen 1) (by rfl) (hcopy 1)
    (by simp only [List.nil_append]; exact hfit)]
  rw [wrap64_of_fits (0 + (a.length : Int)) (by omega) (by omega)]
  rw [wrap64_of_fits (0 + (a.length : Int) + (b.length : Int)) (by omega) (by omega)]
  simp only [assembleLoop]
  have e1 : (0 : Int) + (a.length : Int) + (b.length : Int) =
      ((a.length + b.length : Nat) : Int) := by omega
  rw [e1, Int.zero_add]
  rfl

theorem example_main (gz : Bytes → Bytes)
    (hfit : (gz [104, 105]).length + (gz [119, 111, 114, 108, 100]).length ≤ maxInt64) :
    main (exampleWorld gz) exampleFlags ["assets".toList] =
      { code := 0
        state :=
          { exampleAssembled (gz [104, 105]) (gz [119, 111, 114, 108, 100]) with
            goCreated := true
            gotext := packageTemplate
              { OutFile := "./bindata".toList, Pkg := "main".toList,
                BinData := exampleBinData (gz [104, 105]).length
                  (gz [119, 111, 114, 108, 100]).length,
                BinDataSize :=
                  (((gz [104, 105]).length + (gz [119, 111, 114, 108, 100]).length : Nat) : Int) }
            executed := some
              { OutFile := "./bindata".toList, Pkg := "main".toList,
                BinData := exampleBinData (gz [104, 105]).length
                  (gz [119, 111, 114, 108, 100]).length,
                BinDataSize :=
                  (((gz [104, 105]).length + (gz [119, 111, 114, 108, 100]).length : Nat) : Int) } } } := by
  have hc := example_compress gz
  have ha := example_assemble (exampleWorld gz) "./bindata".toList (gz [104, 105])
    (gz [119, 111, 114, 108, 100]) rfl (fun _ => rfl) (fun _ => rfl) hfit
  unfold main
  rw [if_neg (by decide)]
  have hp : exampleFlags.pfx = "assets/".toList := rfl
  have ho : exampleFlags.outfile = "./bindata".toList := rfl
  rw [hp, hc]
  simp only
  rw [ho, ha]
  rfl

theorem assetName_injOn (p a b : GoString)
    (hp : (p <+: a ∧ p <+: b) ∨ (¬ p <+: a ∧ ¬ p <+: b))
    (h : assetName p a = assetName p b) : a = b := by
  unfold assetName at h
  have h1 : TrimPrefix a p = TrimPrefix b p := List.append_cancel_right h
  rcases hp with ⟨⟨ra, ha⟩, ⟨rb, hb⟩⟩ | ⟨ha, hb⟩
  · rw [← ha, ← hb, trimPrefix_append, trimPrefix_append] at h1
    rw [← ha, ← hb, h1]
  · rw [trimPrefix_unchanged _ _ ha, trimPrefix_unchanged _ _ hb] at h1
    exact h1

theorem name_of_path (w : World) (p : GoString) (args : List GoString)
    (tmpFiles : List fileInfo) (s s1 : State) (h : compressFiles w p args s = .ok tmpFiles s1) :
    ∀ t ∈ tmpFiles, t.Name = assetName p t.Path := by
  obtain ⟨h1, -⟩ := compressDirs_ok w p args [] tmpFiles s s1 h
  simp only [List.map_nil, List.nil_append] at h1
  intro t ht
  have hmem : (t.Name, t.Path) ∈ tmpFiles.map (fun t => (t.Name, t.Path)) :=
    List.mem_map_of_mem (fun t => (t.Name, t.Path)) ht
  rw [h1] at hmem
  obtain ⟨e, -, he⟩ := List.mem_map.1 hmem
  simp only [Prod.mk.injEq] at he
  rw [← he.1, ← he.2]

/-- Whatever `gz.Close()` and `inf.Close()` return, a unit whose five checked
calls succeed returns normally. -/
theorem compressUnit_returns (w : World) (p dir f tmp : GoString) (src : Bytes)
    (acc : List fileInfo) (s : State) (h1 : w.createTemp acc.length f = some tmp)
    (h2 : tmp ∉ s.temps.map Prod.fst) (h3 : w.newWriter acc.length = true)
    (h4 : w.openSrc (pathJoin dir f) = some src) (h5 : w.copyIn acc.length = true)
    (h6 : w.stat acc.length = true) :
    compressUnit w p dir f acc s = .ok (acc ++ [collected p dir f tmp])
      { s with temps := s.temps ++ [(tmp, written w acc.length src)] } := by
  have hex : (s.temps.lookup tmp).isSome = false := by
    rw [← Bool.not_eq_true, lookup_isSome]; exact h2
  simp only [compressUnit, h1, hex, h3, h4, h5, h6]
  rfl

/-- A unit in which one of the five checked calls fails ends in `log.Fatal`. -/
theorem compressUnit_fatal (w : World) (p dir f : GoString) (acc : List fileInfo) (s : State)
    (h : w.createTemp acc.length f = none ∨ w.newWriter acc.length = false ∨
      w.openSrc (pathJoin dir f) = none ∨ w.copyIn acc.length = false ∨
      w.stat acc.length = false) :
    ∃ s1, compressUnit w p dir f acc s = .fatal s1 := by
  cases hr : compressUnit w p dir f acc s with
  | fatal s1 => exact ⟨s1, rfl⟩
  | ok acc1 s1 =>
    obtain ⟨tmp, src, h1, -, h3, h4, h5, h6, -, -⟩ := compressUnit_ok w p dir f acc acc1 s s1 hr
    rcases h with h | h | h | h | h
    · rw [h] at h1; cases h1
    · rw [h] at h3; cases h3
    · rw [h] at h4; cases h4
    · rw [h] at h5; cases h5
    · rw [h] at h6; cases h6

theorem compressDir_checked (w : World) (p dir : GoString) (files : List GoString)
    (acc acc1 : List fileInfo) (s s1 : State)
    (h : compressDir w p dir files acc s = .ok acc1 s1) :
    acc1.length = acc.length + files.length ∧
      ∀ (j : Nat) (f : GoString), files[j]? = some f → Checked w (acc.length + j) dir f := by
  induction files generalizing acc s with
  | nil =>
    simp only [compressDir, Res.ok.injEq] at h
    obtain ⟨rfl, rfl⟩ := h
    simp
  | cons f0 fs ih =>
    simp only [compressDir] at h
    split at h
    · cases h
    · rename_i acc2 s2 hu
      obtain ⟨hlen, hrest⟩ := ih acc2 s2 h
      obtain ⟨tmp, src, h1, -, h3, h4, h5, h6, hacc, -⟩ :=
        compressUnit_ok w p dir f0 acc acc2 s s2 hu
      have hl2 : acc2.length = acc.length + 1 := by rw [hacc]; simp
      refine ⟨by rw [hlen, hl2]; simp only [List.length_cons]; omega, ?_⟩
      intro j f hj
      cases j with
      | zero =>
        simp only [List.getElem?_cons_zero, Option.some.injEq] at hj
        subst hj
        exact ⟨by rw [Nat.add_zero, h1]; rfl, h3, by rw [h4]; rfl, h5, h6⟩
      | succ j =>
        simp only [List.getElem?_cons_succ] at hj
        have := hrest j f hj
        rw [hl2] at this
        have hidx : acc.length + (j + 1) = acc.length + 1 + j := by omega
        rw [hidx]
        exact this

theorem compressDirs_checked (w : World) (p : GoString) (ds : List GoString)
    (acc acc1 : List fileInfo) (s s1 : State)
    (h : compressDirs w p ds acc s = .ok acc1 s1) :
    acc1.length = acc.length + (discover w ds).length ∧
      ∀ (j : Nat) (e : GoString × GoString), (discover w ds)[j]? = some e →
        Checked w (acc.length + j) e.1 e.2 := by
  induction ds generalizing acc s with
  | nil =>
    simp only [compressDirs, Res.ok.injEq] at h
    obtain ⟨rfl, rfl⟩ := h
    simp [discover]
  | cons d ds ih =>
    simp only [compressDirs] at h
    split at h
    · cases h
    · rename_i files hrd
      split at h
      · cases h
      · rename_i acc2 s2 hd
        obtain ⟨hlen, hrest⟩ := ih acc2 s2 h
        obtain ⟨hl2, hfirst⟩ := compressDir_checked w p d files acc acc2 _ s2 hd
        have hdisc : discover w (d :: ds) = files.map (fun f => (d, f)) ++ discover w ds := by
          simp [discover, hrd]
        rw [hdisc]
        refine ⟨by rw [hlen, hl2]; simp only [List.length_append, List.length_map]; omega, ?_⟩
        intro j e hj
        by_cases hlt : j < files.length
        · rw [List.getElem?_append_left (by simpa using hlt)] at hj
          rw [List.getElem?_map] at hj
          cases hf : files[j]? with
          | none => rw [hf] at hj; simp at hj
          | some f =>
            rw [hf] at hj
            simp only [Option.map_some', Option.some.injEq] at hj
            subst hj
            exact hfirst j f hf
        · rw [List.getElem?_append_right (by simpa using hlt)] at hj
          simp only [List.length_map] at hj
          have := hrest (j - files.length) e hj
          rw [hl2] at this
          have hidx : acc.length + files.length + (j - files.length) = acc.length + j := by omega
          rw [hidx] at this
          exact this

theorem compressDir_closeSrc (w : World) (c : Nat → Bool) (p dir : GoString)
    (files : List GoString) (acc : List fileInfo) (s : State) :
    compressDir { w with closeSrc := c } p dir files acc s = compressDir w p dir files acc s := by
  induction files generalizing acc s with
  | nil => rfl
  | cons f fs ih =>
    have hu : compressUnit { w with closeSrc := c } p dir f acc s = compressUnit w p dir f acc s :=
      rfl
    simp only [compressDir, hu]
    split
    · rfl
    · exact ih _ _

theorem compressDirs_closeSrc (w : World) (c : Nat → Bool) (p : GoString) (ds : List GoString)
    (acc : List fileInfo) (s : State) :
    compressDirs { w with closeSrc := c } p ds acc s = compressDirs w p ds acc s := by
  induction ds generalizing acc s with
  | nil => rfl
  | cons d ds ih =>
    simp only [compressDirs, compressDir_closeSrc]
    split
    · rfl
    · split
      · rfl
      · exact ih _ _

/-- C1, at the failing input: in the worked example with `a.txt` empty, the
close of its compressor fails before anything is written, the error is
dropped, and the run ends with status 0 and both offsets 0: the offsets are
not strictly increasing. -/
theorem offsets_not_strict :
    (main flushFailWorld exampleFlags ["assets".toList]).code = 0 ∧
      (main flushFailWorld exampleFlags ["assets".toList]).state.executed.map
          (fun d => d.BinData.map (fun t => (t.Offset, t.Size))) = some [(0, 0), (0, 7)] ∧
      ¬ ∀ d, (main flushFailWorld exampleFlags ["assets".toList]).state.executed = some d →
          d.BinData.Pairwise (fun a b => a.Offset < b.Offset) := by
  refine ⟨by decide, by decide, ?_⟩
  intro h
  have := h (exampleBinData 0 7 |> fun bd =>
    { OutFile := "./bindata".toList, Pkg := "main".toList, BinData := bd, BinDataSize := 7 })
    (by decide)
  revert this
  decide

theorem forall₂_right {α β : Type} {R : α → β → Prop} {l1 : List α} {l2 : List β}
    (h : List.Forall₂ R l1 l2) : ∀ b ∈ l2, ∃ a ∈ l1, R a b := by
  induction h with
  | nil => intro b hb; cases hb
  | @cons a0 b0 l1 l2 hab _ ih =>
    intro b hb
    rcases List.mem_cons.1 hb with rfl | hb
    · exact ⟨a0, List.mem_cons_self _ _, hab⟩
    · obtain ⟨a, ha, hR⟩ := ih b hb
      exact ⟨a, List.mem_cons_of_mem _ ha, hR⟩

/-- With no close error dropped and a compressor whose streams are never
empty (a gzip stream has a header), the offsets of every run that ends
normally are strictly increasing. -/
theorem strict_when_closed (w : World) (fl : Flags) (args : List GoString)
    (hne : ∀ b, w.gzip b ≠ []) (hclose : ∀ k, w.closeGz k = none)
    (hrun : (main w fl args).code = 0) :
    ∃ d, (main w fl args).state.executed = some d ∧
      d.BinData.Pairwise (fun a b => a.Offset < b.Offset) := by
  obtain ⟨tmpFiles, s1, off, bd, s2, hc, ha, -, hex⟩ := main_done w fl args hrun
  refine ⟨_, hex, ?_⟩
  simp only
  obtain ⟨-, hinv⟩ := compressFiles_ok w fl.pfx args tmpFiles s1 hc
  obtain ⟨hf2, hnd⟩ := hinv hclose
  obtain ⟨-, hbd, -, -, -⟩ := assemble_ok w fl.outfile tmpFiles s1 off bd s2 ha
  have hcop : copied tmpFiles s1.temps = s1.temps.map Prod.snd :=
    copied_eq tmpFiles s1.temps (hf2.imp (fun _ _ hR => hR.1)) hnd
  have hlen : (copied tmpFiles s1.temps).length = tmpFiles.length := length_copied _ _
  rw [hbd]
  apply finalize_strict
  intro a hmem
  have hsz : a.Size ∈ (finalize tmpFiles (copied tmpFiles s1.temps) 0).map (fun t => t.Size) :=
    List.mem_map_of_mem (fun t => t.Size) hmem
  rw [finalize_sizes _ _ _ hlen, hcop] at hsz
  obtain ⟨c, hcmem, hceq⟩ := List.mem_map.1 hsz
  obtain ⟨e, hemem, rfl⟩ := List.mem_map.1 hcmem
  obtain ⟨t, -, -, src, -, hgz⟩ := forall₂_right hf2 e hemem
  rw [← hceq, hgz]
  have := List.length_pos.2 (hne src)
  omega

/-- C4, at the failing input: in the worked example, the close of the
compressor of `b.txt` fails after 3 bytes of its stream, the error is
dropped, and the run ends with status 0; the index places `b.txt.gz` at
offset 4 with size 3, these bytes of the blob are not the compressed stream
of `b.txt`, and decompressing them gives one byte, not the content of
`b.txt`. -/
theorem round_trip_broken_at_status0 :
    truncatedWorld.closeGz 1 = some 3 ∧
      (main truncatedWorld exampleFlags ["assets".toList]).code = 0 ∧
      (main truncatedWorld exampleFlags ["assets".toList]).state.executed.map
          (fun d => d.BinData.map (fun t => (t.Name, t.Path, t.Offset, t.Size))) =
        some [("a.txt.gz".toList, "assets/a.txt".toList, 0, 4),
          ("b.txt.gz".toList, "assets/b.txt".toList, 4, 3)] ∧
      truncatedWorld.openSrc "assets/b.txt".toList = some [119, 111, 114, 108, 100] ∧
      slice (main truncatedWorld exampleFlags ["assets".toList]).state.blob 4 3 =
        [31, 139, 119] ∧
      truncatedWorld.gzip [119, 111, 114, 108, 100] = [31, 139, 119, 111, 114, 108, 100] ∧
      truncatedWorld.gunzip
          (slice (main truncatedWorld exampleFlags ["assets".toList]).state.blob 4 3) =
        some [119] := by
  refine ⟨by decide, by decide, by decide, by decide, by decide, by decide, by decide⟩

/-- C6, the claim as stated fails: the index of the worked example has the
names `a.txt.gz` and `b.txt.gz`, and no entry named `/a.txt.gz`. -/
theorem example_names_without_slash :
    (main (exampleWorld toyGzip) exampleFlags ["assets".toList]).state.executed.map
        (fun d => d.BinData.map (fun t => t.Name)) =
        some ["a.txt.gz".toList, "b.txt.gz".toList] ∧
      "/a.txt.gz".toList ∉ ["a.txt.gz".toList, "b.txt.gz".toList] := by
  refine ⟨by decide, by decide⟩

/-- C6, as amended: with directories `[assets]`, prefix `assets/` and files
`a.txt` ("hi") and `b.txt` ("world"), the run ends normally and the index maps
`a.txt.gz` to offset 0 and the compressed length of "hi", and `b.txt.gz` to
that length as offset and the compressed length of "world"; `BinDataSize` is
the sum of the two lengths, and the blob is the two streams in this order. -/
theorem worked_example (gz : Bytes → Bytes)
    (hfit : (gz [104, 105]).length + (gz [119, 111, 114, 108, 100]).length ≤ maxInt64) :
    (main (exampleWorld gz) exampleFlags ["assets".toList]).code = 0 ∧
      (main (exampleWorld gz) exampleFlags ["assets".toList]).state.executed = some
        { OutFile := "./bindata".toList, Pkg := "main".toList,
          BinData :=
            [{ Name := "a.txt.gz".toList, Path := "assets/a.txt".toList,
               TempFile := "/tmp/a.txt0".toList, Offset := 0,
               Size := ((gz [104, 105]).length : Int) },
             { Name := "b.txt.gz".toList, Path := "assets/b.txt".toList,
               TempFile := "/tmp/b.txt1".toList, Offset := ((gz [104, 105]).length : Int),
               Size := ((gz [119, 111, 114, 108, 100]).length : Int) }],
          BinDataSize :=
            ((gz [104, 105]).length : Int) + ((gz [119, 111, 114, 108, 100]).length : Int) } ∧
      (main (exampleWorld gz) exampleFlags ["assets".toList]).state.blob =
        gz [104, 105] ++ gz [119, 111, 114, 108, 100] := by
  rw [example_main gz hfit]
  refine ⟨rfl, ?_, rfl⟩
  simp only [exampleBinData, Nat.cast_add]

/-- In the worked example with `a.txt` empty, `gz.Close()` of the first unit
returns an error with nothing written, and `compressFiles` still returns
normally, the first temporary file left empty. -/
theorem flush_failure_ignored :
    flushFailWorld.closeGz 0 = some 0 ∧
      compressFiles flushFailWorld "assets/".toList ["assets".toList] State.init =
        .ok exampleTmpFiles (exampleCompressed [] (toyGzip [119, 111, 114, 108, 100])) := by
  refine ⟨by decide, by decide⟩

/-- C7, the claim as stated fails: in the worked example with every
`inf.Close()` returning an error, `compressFiles` returns normally and the
run ends with status 0. -/
theorem source_close_failure_ignored :
    closeFailWorld.closeSrc 0 = false ∧
      compressFiles closeFailWorld "assets/".toList ["assets".toList] State.init =
        .ok exampleTmpFiles
          (exampleCompressed (toyGzip [104, 105]) (toyGzip [119, 111, 114, 108, 100])) ∧
      (main closeFailWorld exampleFlags ["assets".toList]).code = 0 := by
  refine ⟨by decide, by decide, by decide⟩

/-- C7, as amended: when `compressFiles` returns normally, then in every
unit it started (one per entry found, numbered in discovery order) creating
the temporary file, creating the compressor, opening the source, copying the
source through the compressor and reading the status of the temporary file
have all succeeded; a unit in which one of them fails ends in `log.Fatal`;
and what `inf.Close()` returns changes nothing. -/
theorem fail_fast_compression (w : World) (p : GoString) (args : List GoString) (s : State) :
    (∀ tmpFiles s1, compressFiles w p args s = .ok tmpFiles s1 →
        ∀ (k : Nat) (e : GoString × GoString), (discover w args)[k]? = some e →
          Checked w k e.1 e.2) ∧
      (∀ dir f acc s0, ¬ Checked w acc.length dir f →
        ∃ s1, compressUnit w p dir f acc s0 = .fatal s1) ∧
      (∀ c, compressFiles { w with closeSrc := c } p args s = compressFiles w p args s) := by
  refine ⟨?_, ?_, ?_⟩
  · intro tmpFiles s1 h k e he
    have := (compressDirs_checked w p args [] tmpFiles s s1 h).2 k e he
    simpa using this
  · intro dir f acc s0 hn
    apply compressUnit_fatal
    unfold Checked at hn
    by_contra hcon
    simp only [not_or] at hcon
    obtain ⟨h1, h2, h3, h4, h5⟩ := hcon
    apply hn
    refine ⟨?_, by simpa using h2, ?_, by simpa using h4, by simpa using h5⟩
    · cases hc : w.createTemp acc.length f with
      | none => exact absurd hc h1
      | some _ => rfl
    · cases hc : w.openSrc (pathJoin dir f) with
      | none => exact absurd hc h3
      | some _ => rfl
  · intro c
    exact compressDirs_closeSrc w c p args [] s

/-- A run in which `os.Create(gofile)` fails ends with status 1. -/
theorem gofile_creation_failure_fatal (w : World) (fl : Flags) (args : List GoString)
    (h : w.createGo fl.gofile = false) : (main w fl args).code = 1 := by
  unfold main
  split
  · rfl
  · split
    · rfl
    · split
      · rfl
      · simp [h]

/-- What `packageTemplate.Execute` returns never changes the exit status. -/
theorem exit_status_ignores_execute (w : World) (e : Option Nat) (fl : Flags)
    (args : List GoString) :
    (main { w with execute := e } fl args).code = (main w fl args).code := by
  have hc : ∀ p s, compressFiles { w with execute := e } p args s = compressFiles w p args s := by
    intro p s
    unfold compressFiles
    generalize ([] : List fileInfo) = acc
    induction args generalizing acc s with
    | nil => rfl
    | cons d ds ih =>
      have hd : ∀ files acc0 s0, compressDir { w with execute := e } p d files acc0 s0 =
          compressDir w p d files acc0 s0 := by
        intro files
        induction files with
        | nil => intro acc0 s0; rfl
        | cons f fs ihf =>
          intro acc0 s0
          have hu : compressUnit { w with execute := e } p d f acc0 s0 =
              compressUnit w p d f acc0 s0 := rfl
          simp only [compressDir, hu]
          split
          · rfl
          · exact ihf _ _
      simp only [compressDirs, hd]
      split
      · rfl
      · split
        · rfl
        · exact ih _ _
  have ha : ∀ o ts s, assemble { w with execute := e } o ts s = assemble w o ts s := by
    intro o ts s
    unfold assemble
    have hl : ∀ ts i off bd s0, assembleLoop { w with execute := e } ts i off bd s0 =
        assembleLoop w ts i off bd s0 := by
      intro ts
      induction ts with
      | nil => intro i off bd s0; rfl
      | cons t ts iht =>
        intro i off bd s0
        simp only [assembleLoop]
        split
        · rfl
        · split
          · rfl
          · split
            · rfl
            · exact iht _ _ _ _
    rw [hl]
  unfold main
  simp only [hc, ha]
  split
  · rfl
  · split
    · rfl
    · split
      · rfl
      · split <;> rfl

/-- C8, at the failing input: in the worked example, `packageTemplate.Execute`
returns an error with nothing written, and the run still ends with status 0,
the generated source file created and empty. -/
theorem render_failure_ignored :
    renderFailWorld.execute = some 0 ∧
      (main renderFailWorld exampleFlags ["assets".toList]).code = 0 ∧
      (main renderFailWorld exampleFlags ["assets".toList]).state.goCreated = true ∧
      (main renderFailWorld exampleFlags ["assets".toList]).state.gotext = [] := by
  refine ⟨by decide, by decide, by decide, by decide⟩

/-- C9: without positional arguments, whatever the options, the usage text is
printed and the process exits with status 1, no directory having been listed
and no temporary file, blob or source file created. -/
theorem no_arguments (w : World) (fl : Flags) :
    (main w fl []).code = 1 ∧ (main w fl []).state.usage = true ∧
      (main w fl []).state.listed = [] ∧ (main w fl []).state.temps = [] ∧
      (main w fl []).state.outCreated = false ∧ (main w fl []).state.goCreated = false ∧
      (main w fl []).state.executed = none := by
  refine ⟨rfl, rfl, rfl, rfl, rfl, rfl, rfl⟩

/-- C10, the claim as stated fails: with the directory `assets` given twice,
`compressFiles` returns every name twice. -/
theorem duplicate_names :
    ((compressFiles (exampleWorld toyGzip) [] ["assets".toList, "assets".toList]
        State.init).value.map (fun ts => ts.map (fun t => t.Name))) =
        some ["assets/a.txt.gz".toList, "assets/b.txt.gz".toList,
          "assets/a.txt.gz".toList, "assets/b.txt.gz".toList] ∧
      ¬ (["assets/a.txt.gz".toList, "assets/b.txt.gz".toList,
          "assets/a.txt.gz".toList, "assets/b.txt.gz".toList]).Nodup := by
  refine ⟨by decide, by decide⟩

/-- C10, as amended: the names `compressFiles` returns are pairwise distinct
whenever the joined paths of the descriptors are pairwise distinct and the
prefix is a literal prefix of all of them or of none of them. -/
theorem names_distinct (w : World) (p : GoString) (args : List GoString)
    (tmpFiles : List fileInfo) (s s1 : State)
    (h : compressFiles w p args s = .ok tmpFiles s1)
    (hpaths : (tmpFiles.map (fun t => t.Path)).Nodup)
    (hpfx : (∀ t ∈ tmpFiles, p <+: t.Path) ∨ (∀ t ∈ tmpFiles, ¬ p <+: t.Path)) :
    (tmpFiles.map (fun t => t.Name)).Nodup := by
  have hname := name_of_path w p args tmpFiles s s1 h
  have hEq : tmpFiles.map (fun t => t.Name) =
      (tmpFiles.map (fun t => t.Path)).map (assetName p) := by
    rw [List.map_map]
    exact List.map_congr_left (fun t ht => hname t ht)
  rw [hEq]
  refine List.Nodup.map_on ?_ hpaths
  intro a ha b hb hab
  obtain ⟨ta, hta, rfl⟩ := List.mem_map.1 ha
  obtain ⟨tb, htb, rfl⟩ := List.mem_map.1 hb
  refine assetName_injOn p _ _ ?_ hab
  rcases hpfx with hall | hnone
  · exact Or.inl ⟨hall ta hta, hall tb htb⟩
  · exact Or.inr ⟨hnone ta hta, hnone tb htb⟩

/-! ## The theorems at the worked example -/

/-- The assembly at the worked example: it completes, both sizes are positive
and the offsets 0 and 4 are strictly increasing. -/
theorem offset_contiguity_witness :
    assemble (exampleWorld toyGzip) "./bindata".toList exampleTmpFiles
        (exampleCompressed (toyGzip [104, 105]) (toyGzip [119, 111, 114, 108, 100])) =
        .ok (11, exampleBinData 4 7)
          (exampleAssembled (toyGzip [104, 105]) (toyGzip [119, 111, 114, 108, 100])) ∧
      (∀ a ∈ exampleBinData 4 7, 0 < a.Size) ∧
      (exampleBinData 4 7).Pairwise (fun a b => a.Offset < b.Offset) :=
  ⟨by decide, by decide,
    (offset_contiguity (exampleWorld toyGzip) "./bindata".toList exampleTmpFiles
      (exampleCompressed (toyGzip [104, 105]) (toyGzip [119, 111, 114, 108, 100])) 11
      (exampleBinData 4 7)
      (exampleAssembled (toyGzip [104, 105]) (toyGzip [119, 111, 114, 108, 100]))
      (by decide)).2.2.2.2.2 (by decide)⟩

/-- C2 at the worked example: the sizes 4 and 7 add up to the 11 bytes of the
blob and to `BinDataSize`. -/
theorem size_conservation_witness :
    (assemble (exampleWorld toyGzip) "./bindata".toList exampleTmpFiles
        (exampleCompressed (toyGzip [104, 105]) (toyGzip [119, 111, 114, 108, 100])) =
        .ok (11, exampleBinData 4 7)
          (exampleAssembled (toyGzip [104, 105]) (toyGzip [119, 111, 114, 108, 100])) ∧
      (11 : Int) = ((exampleBinData 4 7).map (fun t => t.Size)).sum) ∧
      ((main (exampleWorld toyGzip) exampleFlags ["assets".toList]).code = 0 ∧
        ∃ d, (main (exampleWorld toyGzip) exampleFlags ["assets".toList]).state.executed = some d ∧
          (d.BinData.map (fun t => t.Size)).sum =
            ((main (exampleWorld toyGzip) exampleFlags ["assets".toList]).state.blob.length : Int) ∧
          d.BinDataSize = (d.BinData.map (fun t => t.Size)).sum) :=
  ⟨⟨by decide,
      ((size_conservation (exampleWorld toyGzip)).1 "./bindata".toList exampleTmpFiles
        (exampleCompressed (toyGzip [104, 105]) (toyGzip [119, 111, 114, 108, 100])) 11
        (exampleBinData 4 7)
        (exampleAssembled (toyGzip [104, 105]) (toyGzip [119, 111, 114, 108, 100]))
        (by decide)).2⟩,
    ⟨by decide,
      (size_conservation (exampleWorld toyGzip)).2 exampleFlags ["assets".toList] (by decide)⟩⟩

/-- C3 at the worked example: `assets/a.txt` with prefix `assets/` is named
`a.txt.gz`, and `other/a.txt`, of which `assets/` is no prefix, keeps its
path before `.gz`. -/
theorem name_derivation_witness :
    compressFiles (exampleWorld toyGzip) "assets/".toList ["assets".toList] State.init =
        .ok exampleTmpFiles
          (exampleCompressed (toyGzip [104, 105]) (toyGzip [119, 111, 114, 108, 100])) ∧
      pathJoin "assets".toList "a.txt".toList = "assets/".toList ++ "a.txt".toList ∧
      assetName "assets/".toList (pathJoin "assets".toList "a.txt".toList) =
        "a.txt".toList ++ ".gz".toList ∧
      ("assets/".toList = [] ∨ ¬ "assets/".toList <+: pathJoin "other".toList "a.txt".toList) ∧
      assetName "assets/".toList (pathJoin "other".toList "a.txt".toList) =
        pathJoin "other".toList "a.txt".toList ++ ".gz".toList :=
  ⟨by decide, by decide,
    (name_derivation (exampleWorld toyGzip) "assets/".toList ["assets".toList] exampleTmpFiles
      State.init (exampleCompressed (toyGzip [104, 105]) (toyGzip [119, 111, 114, 108, 100]))
      (by decide)).2.1 "assets".toList "a.txt".toList "a.txt".toList (by decide),
    by decide,
    (name_derivation (exampleWorld toyGzip) "assets/".toList ["assets".toList] exampleTmpFiles
      State.init (exampleCompressed (toyGzip [104, 105]) (toyGzip [119, 111, 114, 108, 100]))
      (by decide)).2.2 "other".toList "a.txt".toList (by decide)⟩

/-- The round trip at the worked example, with the stand-in compressor. -/
theorem round_trip_witness :
    (∀ b, (exampleWorld toyGzip).gunzip ((exampleWorld toyGzip).gzip b) = some b) ∧
      (∀ k, (exampleWorld toyGzip).closeGz k = none) ∧
      (main (exampleWorld toyGzip) exampleFlags ["assets".toList]).code = 0 ∧
      ∃ d, (main (exampleWorld toyGzip) exampleFlags ["assets".toList]).state.executed = some d ∧
        ∀ (i : Nat) (t : fileInfo), d.BinData[i]? = some t →
          ∃ src, (exampleWorld toyGzip).openSrc t.Path = some src ∧
            slice (main (exampleWorld toyGzip) exampleFlags ["assets".toList]).state.blob
              t.Offset t.Size = (exampleWorld toyGzip).gzip src ∧
            (exampleWorld toyGzip).gunzip
              (slice (main (exampleWorld toyGzip) exampleFlags ["assets".toList]).state.blob
                t.Offset t.Size) = some src :=
  ⟨fun _ => rfl, fun _ => rfl, by decide,
    round_trip (exampleWorld toyGzip) exampleFlags ["assets".toList] (fun _ => rfl)
      (fun _ => rfl) (by decide)⟩

/-- C5 at the worked example: a second run over the same listing, in which a
compressor fails to flush, hands the template the same names. -/
theorem discovery_order_witness :
    (main (exampleWorld toyGzip) exampleFlags ["assets".toList]).code = 0 ∧
      (∀ dir ∈ ["assets".toList],
        flushFailWorld.readDir dir = (exampleWorld toyGzip).readDir dir) ∧
      (main flushFailWorld exampleFlags ["assets".toList]).code = 0 ∧
      ∃ d, (main (exampleWorld toyGzip) exampleFlags ["assets".toList]).state.executed = some d ∧
        ∃ d2, (main flushFailWorld exampleFlags ["assets".toList]).state.executed = some d2 ∧
          d2.BinData.map (fun t => t.Name) = d.BinData.map (fun t => t.Name) :=
  ⟨by decide, fun _ _ => rfl, by decide,
    (discovery_order (exampleWorld toyGzip) exampleFlags ["assets".toList] (by decide)).elim
      (fun d hd => ⟨d, hd.1, hd.2.2 flushFailWorld (fun _ _ => rfl) (by decide)⟩)⟩

/-- C6 at the stand-in compressor, whose two streams fit in a file. -/
theorem worked_example_witness :
    (toyGzip [104, 105]).length + (toyGzip [119, 111, 114, 108, 100]).length ≤ maxInt64 ∧
      (main (exampleWorld toyGzip) exampleFlags ["assets".toList]).code = 0 :=
  ⟨by decide, (worked_example toyGzip (by decide)).1⟩

/-- C7 at the worked example: the checked calls of unit 1 succeeded, and a
unit for the missing file `c.txt` ends in `log.Fatal`. -/
theorem fail_fast_compression_witness :
    compressFiles (exampleWorld toyGzip) "assets/".toList ["assets".toList] State.init =
        .ok exampleTmpFiles
          (exampleCompressed (toyGzip [104, 105]) (toyGzip [119, 111, 114, 108, 100])) ∧
      (discover (exampleWorld toyGzip) ["assets".toList])[1]? =
        some ("assets".toList, "b.txt".toList) ∧
      Checked (exampleWorld toyGzip) 1 "assets".toList "b.txt".toList ∧
      ¬ Checked (exampleWorld toyGzip) 0 "assets".toList "c.txt".toList ∧
      ∃ s1, compressUnit (exampleWorld toyGzip) "assets/".toList "assets".toList "c.txt".toList
        [] State.init = .fatal s1 :=
  ⟨by decide, by decide,
    (fail_fast_compression (exampleWorld toyGzip) "assets/".toList ["assets".toList]
      State.init).1 exampleTmpFiles
      (exampleCompressed (toyGzip [104, 105]) (toyGzip [119, 111, 114, 108, 100])) (by decide) 1
      ("assets".toList, "b.txt".toList) (by decide),
    by unfold Checked; decide,
    (fail_fast_compression (exampleWorld toyGzip) "assets/".toList ["assets".toList]
      State.init).2.1 "assets".toList "c.txt".toList [] State.init
      (by unfold Checked; decide)⟩

/-- C10 at the worked example: two distinct paths, both starting with the
prefix, and two distinct names. -/
theorem names_distinct_witness :
    compressFiles (exampleWorld toyGzip) "assets/".toList ["assets".toList] State.init =
        .ok exampleTmpFiles
          (exampleCompressed (toyGzip [104, 105]) (toyGzip [119, 111, 114, 108, 100])) ∧
      (exampleTmpFiles.map (fun t => t.Path)).Nodup ∧
      ((∀ t ∈ exampleTmpFiles, "assets/".toList <+: t.Path) ∨
        (∀ t ∈ exampleTmpFiles, ¬ "assets/".toList <+: t.Path)) ∧
      (exampleTmpFiles.map (fun t => t.Name)).Nodup :=
  ⟨by decide, by decide, Or.inl (by decide),
    names_distinct (exampleWorld toyGzip) "assets/".toList ["assets".toList] exampleTmpFiles
      State.init (exampleCompressed (toyGzip [104, 105]) (toyGzip [119, 111, 114, 108, 100]))
      (by decide) (by decide) (Or.inl (by decide))⟩

end GenBindata
